import Mathlib

/-!
Verification of the PII detection / redaction / risk-scoring core of
`backend/pii_scanner.py`.

The Python module is shallowly embedded here:

* a Python finding dict becomes the structure `Finding` (absent dict keys
  become `none`);
* Python strings become `String` / `List Char` (Python strings are
  sequences of Unicode code points, as is `String.data`);
* Python machine ints are unbounded, so they become `Int`;
* the two optional model detectors (spaCy NER and the HuggingFace NER
  pipeline) are external, environment-dependent components: their output
  is abstracted as an `Env` of arbitrary finding-producing functions.
  When the models are unavailable the Python functions return `[]`,
  which corresponds to the trivial environment.
* the four regular expressions of `PII_PATTERNS` are embedded as
  hand-rolled matchers implementing Python `re` semantics (leftmost
  scan position, greedy quantifiers with backtracking, non-overlapping
  successive matches) specialised to each concrete pattern.  The
  character classes `\d`, `\w`, `\s` are modelled by their ASCII
  contents, which is exact on ASCII text.
-/

namespace PIIScanner

/-- A finding dict produced by the scanner.  Field `type` is the PII kind,
`value` the matched substring, `start`/`end` the half-open character span,
`source` the detector tag and `confidence` a numeric confidence.  Every
field is optional because Python `dict.get` yields `None` for a missing
key. -/
structure Finding where
  type : Option String
  value : Option String
  start : Option Int
  «end» : Option Int
  source : Option String
  confidence : Option ℚ
deriving DecidableEq, Repr

/-- The fixed regex-detector confidence `0.9` (as the exact rational,
built in normalised form so that it evaluates by kernel reduction). -/
def conf09 : ℚ := ⟨9, 10, by decide, by decide⟩

/-- `str.lower()` (exact on ASCII, which covers every `type` label the
scanner compares against). -/
def strLower (s : String) : String := String.mk (s.data.map Char.toLower)

/-- The environment supplying the output of the two optional model
detectors (`_spacy_scan` and `_hf_ner_scan`).  When the corresponding
model is unavailable the Python function returns the empty list, which is
the environment `fun x => []`. -/
structure Env where
  spacy : String → List Finding
  hf : String → List Finding

/-! ### Character classes of the four regular expressions (ASCII) -/

/-- `[a-zA-Z0-9._%+-]` — the local part class of the email pattern. -/
def isEmailLocalChar (c : Char) : Bool :=
  c.isAlphanum || c = '.' || c = '_' || c = '%' || c = '+' || c = '-'

/-- `[a-zA-Z0-9.-]` — the domain class of the email pattern. -/
def isEmailDomainChar (c : Char) : Bool :=
  c.isAlphanum || c = '.' || c = '-'

/-- `\w` — a regex word character (ASCII). -/
def isWordChar (c : Char) : Bool :=
  c.isAlphanum || c = '_'

/-- `\s` — a regex whitespace character (ASCII: space, tab, newline,
vertical tab, form feed, carriage return). -/
def isSpaceChar (c : Char) : Bool :=
  c = ' ' || c = '\t' || c = '\n' || c = '\x0b' || c = '\x0c' || c = '\r'

/-- `[-.]` — the optional separator class of the phone pattern. -/
def isPhoneSep (c : Char) : Bool :=
  c = '-' || c = '.'

/-- `[-\s]` — the optional separator class of the credit-card pattern. -/
def isCCSep (c : Char) : Bool :=
  c = '-' || isSpaceChar c

/-- Length of the maximal prefix of `s` whose characters all satisfy `p`
(the greedy extent of a `class+` / `class*` item). -/
def takeRun (p : Char → Bool) : List Char → Nat
  | [] => 0
  | c :: cs => if p c then takeRun p cs + 1 else 0

/-- `\b` on the left of a pattern whose first item is `\d` (a word
character): the boundary holds exactly when the preceding character is
absent or not a word character. -/
def leftBoundary (prev : Option Char) : Bool :=
  match prev with
  | none => true
  | some c => !isWordChar c

/-- `\b` on the right of a pattern whose last item is `\d`: the boundary
holds exactly when the following character is absent or not a word
character. -/
def rightBoundary : List Char → Bool
  | [] => true
  | c :: _ => !isWordChar c

/-- Consume exactly `n` leading `\d` characters, returning the rest. -/
def dropDigits : Nat → List Char → Option (List Char)
  | 0, s => some s
  | _ + 1, [] => none
  | n + 1, c :: s => if c.isDigit then dropDigits n s else none

/-- Consume one leading character from class `isSep` when `take` is true
(the branch of a greedy `class?` that consumes), otherwise consume
nothing. -/
def dropSep (isSep : Char → Bool) (take : Bool) (s : List Char) : Option (List Char) :=
  if take then
    match s with
    | c :: rest => if isSep c then some rest else none
    | [] => none
  else some s

/-- Consume one fixed literal character. -/
def dropLit (c : Char) : List Char → Option (List Char)
  | x :: rest => if x = c then some rest else none
  | [] => none

/-! ### The email pattern `[a-zA-Z0-9._%+-]+@[a-zA-Z0-9.-]+\.[a-zA-Z]{2,}` -/

/-- Backtracking search for the split of the domain part
`[a-zA-Z0-9.-]+\.[a-zA-Z]{2,}` of the email pattern after the `@`:
the greedy `+` tries the longest domain run first, so the split point
`j` (number of characters consumed by `[a-zA-Z0-9.-]+`) is searched
downwards; at each `j` the literal `.` must be present and the greedy
`[a-zA-Z]{2,}` takes the maximal alphabetic run (at least 2).  The
argument is the candidate `j`; candidates `j, j-1, …, 1` are tried. -/
def domainSearch (s2 : List Char) : Nat → Option Nat
  | 0 => none
  | jm1 + 1 =>
    let j := jm1 + 1
    let k := takeRun Char.isAlpha (s2.drop (j + 1))
    if s2.getD j ' ' = '.' ∧ 2 ≤ k then some (j + 1 + k)
    else domainSearch s2 jm1

/-- Match length of `[a-zA-Z0-9.-]+\.[a-zA-Z]{2,}` at the head of `s2`.
Since `.` and letters both belong to `[a-zA-Z0-9.-]`, the whole match
lies inside the maximal run of that class; the split is searched from
the longest candidate down. -/
def domainMatch (s2 : List Char) : Option Nat :=
  domainSearch s2 (takeRun isEmailDomainChar s2 - 1)

/-- Match length of the email pattern at the head of `s`.  `@` is not in
the local-part class, so the greedy `[a-zA-Z0-9._%+-]+` deterministically
takes the maximal run and the next character must be `@`. -/
def emailMatch (_prev : Option Char) (s : List Char) : Option Nat :=
  let r1 := takeRun isEmailLocalChar s
  if r1 = 0 then none
  else
    match s.drop r1 with
    | '@' :: s2 =>
      match domainMatch s2 with
      | some d => some (r1 + 1 + d)
      | none => none
    | _ => none

/-! ### The phone pattern `\b\d{3}[-.]?\d{3}[-.]?\d{4}\b` -/

/-- One backtracking alternative of the phone pattern: `o1`/`o2` say
whether each greedy `[-.]?` consumes a separator.  Returns the remaining
suffix on success. -/
def phoneCombo (o1 o2 : Bool) (s : List Char) : Option (List Char) := do
  let s1 ← dropDigits 3 s
  let s2 ← dropSep isPhoneSep o1 s1
  let s3 ← dropDigits 3 s2
  let s4 ← dropSep isPhoneSep o2 s3
  let s5 ← dropDigits 4 s4
  if rightBoundary s5 then some s5 else none

/-- Match length of the phone pattern at the head of `s`.  The greedy
`?` items backtrack in the order consume/consume, consume/skip,
skip/consume, skip/skip. -/
def phoneMatch (prev : Option Char) (s : List Char) : Option Nat :=
  if leftBoundary prev then
    match phoneCombo true true s <|> phoneCombo true false s <|>
          phoneCombo false true s <|> phoneCombo false false s with
    | some rest => some (s.length - rest.length)
    | none => none
  else none

/-! ### The SSN pattern `\b\d{3}-\d{2}-\d{4}\b` (no backtracking) -/

/-- Match length of the SSN pattern at the head of `s`. -/
def ssnMatch (prev : Option Char) (s : List Char) : Option Nat :=
  if leftBoundary prev then
    match (do
      let s1 ← dropDigits 3 s
      let s2 ← dropLit '-' s1
      let s3 ← dropDigits 2 s2
      let s4 ← dropLit '-' s3
      let s5 ← dropDigits 4 s4
      if rightBoundary s5 then some s5 else none : Option (List Char)) with
    | some rest => some (s.length - rest.length)
    | none => none
  else none

/-! ### The credit-card pattern `\b\d{4}[-\s]?\d{4}[-\s]?\d{4}[-\s]?\d{4}\b` -/

/-- One backtracking alternative of the credit-card pattern. -/
def ccCombo (o1 o2 o3 : Bool) (s : List Char) : Option (List Char) := do
  let s1 ← dropDigits 4 s
  let s2 ← dropSep isCCSep o1 s1
  let s3 ← dropDigits 4 s2
  let s4 ← dropSep isCCSep o2 s3
  let s5 ← dropDigits 4 s4
  let s6 ← dropSep isCCSep o3 s5
  let s7 ← dropDigits 4 s6
  if rightBoundary s7 then some s7 else none

/-- Match length of the credit-card pattern at the head of `s`; the three
greedy `?` items backtrack lexicographically, consuming first. -/
def ccMatch (prev : Option Char) (s : List Char) : Option Nat :=
  if leftBoundary prev then
    match ccCombo true true true s <|> ccCombo true true false s <|>
          ccCombo true false true s <|> ccCombo true false false s <|>
          ccCombo false true true s <|> ccCombo false true false s <|>
          ccCombo false false true s <|> ccCombo false false false s with
    | some rest => some (s.length - rest.length)
    | none => none
  else none

/-! ### `finditer` and `sub` -/

/-- A pattern matcher: given the character preceding the current position
(for `\b`) and the suffix at the position, the length of the (greedy,
leftmost-position) match there, if any. -/
def Matcher : Type := Option Char → List Char → Option Nat

/-- The character just before position `pos` of `s`. -/
def prevAt (s : List Char) (pos : Nat) : Option Char :=
  if pos = 0 then none else s[pos - 1]?

/-- `re.finditer` from position `pos`: try each position left to right;
on a match of length `L` record the span and resume at its end
(non-overlapping matches).  None of the four patterns can match the
empty string, so a length-0 result (impossible) is treated as no match.
The recursion is driven by a fuel counter so that it is structural (and
hence kernel-reducible): `pos` strictly increases at every step and the
loop stops as soon as `pos` reaches `s.length`, so with initial fuel
`s.length + 1` the fuel is never exhausted and the function agrees with
the unbounded scanning loop. -/
def findAllFrom (m : Matcher) (s : List Char) : Nat → Nat → List (Nat × Nat)
  | _, 0 => []
  | pos, fuel + 1 =>
    if s.length ≤ pos then []
    else
      match m (prevAt s pos) (s.drop pos) with
      | some (L + 1) => (pos, pos + L + 1) :: findAllFrom m s (pos + L + 1) fuel
      | _ => findAllFrom m s (pos + 1) fuel

/-- All non-overlapping matches of `m` in `s`, as half-open spans. -/
def findAll (m : Matcher) (s : List Char) : List (Nat × Nat) :=
  findAllFrom m s 0 (s.length + 1)

/-- Rebuild a string from its match list: the gap before each match is
copied and the match replaced by `ph`; used for `pattern.sub`. -/
def subRebuild (s ph : List Char) : List (Nat × Nat) → Nat → List Char
  | [], last => s.drop last
  | (a, b) :: ms, last => (s.drop last).take (a - last) ++ ph ++ subRebuild s ph ms b

/-- `pattern.sub(ph, s)`: replace every non-overlapping match with `ph`.
The replacement string is taken literally (exact when `ph` contains no
backslash, as with the default placeholder). -/
def subPattern (m : Matcher) (ph s : List Char) : List Char :=
  subRebuild s ph (findAll m s) 0

/-! ### `PII_PATTERNS` and `_regex_scan` -/

/-- The `PII_PATTERNS` dict, in insertion order. -/
def PII_PATTERNS : List (String × Matcher) :=
  [("email", emailMatch), ("phone", phoneMatch), ("ssn", ssnMatch), ("credit_card", ccMatch)]

/-- `_regex_scan`: for each pattern (dict order) and each of its matches,
one finding with the matched substring, its exact span, source
`"regex"` and confidence `0.9`. -/
def regexScan (text : String) : List Finding :=
  (PII_PATTERNS.map (fun p =>
    (findAll p.2 text.data).map (fun ab =>
      { type := some p.1
        value := some (String.mk ((text.data.drop ab.1).take (ab.2 - ab.1)))
        start := some (ab.1 : Int)
        «end» := some (ab.2 : Int)
        source := some "regex"
        confidence := some conf09 }))).flatten

/-! ### `_dedupe_findings` -/

/-- The deduplication identity of a finding:
`(f.get("type"), f.get("value"), f.get("start"), f.get("end"))`. -/
def dedupeKey (f : Finding) : Option String × Option String × Option Int × Option Int :=
  (f.type, f.value, f.start, f.«end»)

/-- The sort key `(x.get("start") or 0, -(x.get("end") or 0))` of
`_dedupe_findings`.  Python `v or 0` maps `None` to `0` and leaves every
int unchanged (`0` is falsy, but `0 or 0` is again `0`), so it is
`Option.getD 0`. -/
def sortKey (f : Finding) : Int × Int :=
  (f.start.getD 0, -(f.«end».getD 0))

/-- Lexicographic `≤` on sort keys: Python compares key tuples
componentwise. -/
def keyLe (a b : Int × Int) : Prop :=
  a.1 < b.1 ∨ (a.1 = b.1 ∧ a.2 ≤ b.2)

instance : DecidableRel keyLe := fun a b => by
  unfold keyLe; infer_instance

/-- The total preorder `sorted` orders findings by. -/
def findingLe (f g : Finding) : Prop :=
  keyLe (sortKey f) (sortKey g)

instance : DecidableRel findingLe := fun f g => by
  unfold findingLe; infer_instance

instance : IsTotal Finding findingLe where
  total f g := by unfold findingLe keyLe; omega

instance : IsTrans Finding findingLe where
  trans f g h := by unfold findingLe keyLe; omega

/-- The walk of `_dedupe_findings` over the sorted list: keep a finding
exactly when its key has not been seen, then record the key.  Python
keeps `seen` in a set; only membership is consulted, so a list of keys
is an equivalent embedding. -/
def keepFirstsAux (seen : List (Option String × Option String × Option Int × Option Int)) :
    List Finding → List Finding
  | [] => []
  | f :: fs =>
    if dedupeKey f ∈ seen then keepFirstsAux seen fs
    else f :: keepFirstsAux (dedupeKey f :: seen) fs

/-- `_dedupe_findings`: sort by `(start or 0, -(end or 0))` and keep the
first occurrence of each `(type, value, start, end)` key.  Python
`sorted` is a stable sort with respect to the key order; insertion sort
is also stable with respect to the same total preorder, and any two
stable sorts of a list by the same preorder coincide, so `insertionSort`
is a faithful embedding of `sorted`. -/
def dedupeFindings (findings : List Finding) : List Finding :=
  keepFirstsAux [] (List.insertionSort findingLe findings)

/-! ### `scan_text` -/

/-- `scan_text`: run the enabled detector families in the fixed order
regex, spaCy, HuggingFace, concatenate their findings and deduplicate.
(The body's `try: if _HF_CLASSIFIER is None: _init_hf_models()` block
returns the same deduplicated list on both paths, so it has no effect on
the result.)  The Python defaults are `use_spacy=use_hf=use_regex=True`.
-/
def scan_text (env : Env) (text : String) (use_spacy use_hf use_regex : Bool) : List Finding :=
  dedupeFindings
    ((if use_regex then regexScan text else []) ++
     (if use_spacy then env.spacy text else []) ++
     (if use_hf then env.hf text else []))

/-! ### `redact_text` -/

/-- Python slicing `t[a:b]` on a list of length `n`: negative bounds
count from the end, then both bounds are clamped into `[0, n]`, and the
result is empty unless the clamped start is below the clamped end. -/
def pySlice (t : List Char) (a b : Int) : List Char :=
  let n : Int := t.length
  let a' : Int := if a < 0 then max (n + a) 0 else min a n
  let b' : Int := if b < 0 then max (n + b) 0 else min b n
  (t.drop a'.toNat).take (b' - a').toNat

/-- Python slicing `t[a:]`, i.e. `t[a:len(t)]`. -/
def pySliceFrom (t : List Char) (a : Int) : List Char :=
  pySlice t a t.length

/-- The ordering `sorted(spans, key=lambda x: x[0])` sorts by. -/
def spanLe (a b : Int × Int) : Prop :=
  a.1 ≤ b.1

instance : DecidableRel spanLe := fun a b => by
  unfold spanLe; infer_instance

instance : IsTotal (Int × Int) spanLe where
  total a b := by unfold spanLe; omega

instance : IsTrans (Int × Int) spanLe where
  trans a b c := by unfold spanLe; omega

/-- `sorted(spans, key=lambda x: x[0])` (stable; embedded by insertion
sort as in `dedupeFindings`). -/
def sortSpans (spans : List (Int × Int)) : List (Int × Int) :=
  List.insertionSort spanLe spans

/-- The merging loop of `redact_text` with `cur` the running last
element of `merged`: the Python loop appends a new span exactly when
`s > merged[-1][1]` and otherwise updates the last span's end to the
max; once a span stops being last it is never touched again, which this
recursion renders directly. -/
def mergeGo : Int × Int → List (Int × Int) → List (Int × Int)
  | cur, [] => [cur]
  | cur, (s, e) :: rest =>
    if s > cur.2 then cur :: mergeGo (s, e) rest
    else mergeGo (cur.1, max cur.2 e) rest

/-- The merged span list of `redact_text` (`merged` after the loop). -/
def mergeSpans : List (Int × Int) → List (Int × Int)
  | [] => []
  | sp :: rest => mergeGo sp rest

/-- The rebuild loop of `redact_text`: for each merged span emit the gap
`text[last:s]` and one placeholder, then `text[last:]` at the end. -/
def rebuildInt (t ph : List Char) : List (Int × Int) → Int → List Char
  | [], last => pySliceFrom t last
  | (s, e) :: ms, last => pySlice t last s ++ ph ++ rebuildInt t ph ms e

/-- The span list of `redact_text`:
`[(f.get("start"), f.get("end")) for f in findings if both are not None]`. -/
def spansOf (findings : List Finding) : List (Int × Int) :=
  findings.filterMap (fun f =>
    match f.start, f.«end» with
    | some s, some e => some (s, e)
    | _, _ => none)

/-- `redact_text`: scan (all detectors enabled), take the spans of the
findings with non-null `start` and `end`; if there are none, fall back
to substituting every `PII_PATTERNS` regex in dict order, otherwise
sort, merge and rebuild.  The Python default placeholder is
`"[REDACTED]"`. -/
def redact_text (env : Env) (text placeholder : String) : String :=
  let findings := scan_text env text true true true
  let spans := spansOf findings
  if spans = [] then
    String.mk (PII_PATTERNS.foldl (fun cur p => subPattern p.2 placeholder.data cur) text.data)
  else
    String.mk (rebuildInt text.data placeholder.data (mergeSpans (sortSpans spans)) 0)

/-! ### `score_privacy_risk` -/

/-- The per-finding contribution of the scoring loop:
`t = (f.get("type") or "").lower()` (again `or ""` is `Option.getD ""`),
then the membership chain over the weight sets. -/
def weightOf (f : Finding) : Int :=
  let t := strLower (f.type.getD "")
  if t ∈ ["ssn", "credit_card"] then 35
  else if t ∈ ["email", "phone"] then 20
  else if t ∈ ["person", "org", "gpe"] then 10
  else 5

/-- `score_privacy_risk`: `0` for an empty list, otherwise the
accumulated weights clamped by `min(int(score), 100)` (the accumulator
is already an int, so `int(score)` is the identity). -/
def score_privacy_risk (findings : List Finding) : Int :=
  if findings = [] then 0
  else min (findings.foldl (fun score f => score + weightOf f) 0) 100

/-! ### Claim-side notions

The following definitions render the wording of the specification, to be
compared with the source-side functions above. -/

/-- The per-finding weight as the scoring claim words it: 35 for the
high-sensitivity kinds ssn/credit_card, 20 for email/phone, 10 for the
identity entities person/org/gpe, 5 otherwise, the kind being the
lowercased type label. -/
def claimWeight (f : Finding) : Int :=
  let kind := strLower (f.type.getD "")
  if kind = "ssn" ∨ kind = "credit_card" then 35
  else if kind = "email" ∨ kind = "phone" then 20
  else if kind = "person" ∨ kind = "org" ∨ kind = "gpe" then 10
  else 5

/-- Position `i` lies inside some span of `ms`. -/
def covered (ms : List (Int × Int)) (i : Int) : Prop :=
  ∃ p ∈ ms, p.1 ≤ i ∧ i < p.2

/-- The spans `ms` form an in-order, in-bounds, pairwise-disjoint chain
above position `lo` in a text of length `n`: each span starts no earlier
than the previous one ended (`lo ≤ start`), is non-degenerate
(`start < end`), and ends within the text. -/
def SpanChain (n : Int) : Int → List (Int × Int) → Prop
  | _, [] => True
  | lo, (s, e) :: ms => lo ≤ s ∧ s < e ∧ e ≤ n ∧ SpanChain n e ms

/-- The rebuild as the redaction claim words it: walk the merged spans
in order, copy the unredacted gap before each span verbatim, emit one
placeholder per span, and append the final trailing gap. -/
def segRebuild (t ph : List Char) : List (Int × Int) → Int → List Char
  | [], last => t.drop last.toNat
  | (s, e) :: ms, last =>
    (t.drop last.toNat).take (s - last).toNat ++ ph ++ segRebuild t ph ms e

/-- The variant of `redact_text` the defensive-exclusion claim
describes: identical except that only spans with
`0 <= start < end <= len(text)` contribute to the merge. -/
def redact_text_validated (env : Env) (text placeholder : String) : String :=
  let findings := scan_text env text true true true
  let spans := (spansOf findings).filter
    (fun p => decide (0 ≤ p.1 ∧ p.1 < p.2 ∧ p.2 ≤ (text.data.length : Int)))
  if spans = [] then
    String.mk (PII_PATTERNS.foldl (fun cur p => subPattern p.2 placeholder.data cur) text.data)
  else
    String.mk (rebuildInt text.data placeholder.data (mergeSpans (sortSpans spans)) 0)

/-! ### Concrete environments used to instantiate the claims -/

/-- The environment in which both model detectors are unavailable (their
scan functions return the empty list). -/
def env0 : Env := ⟨fun _ => [], fun _ => []⟩

/-- The spaCy default confidence `0.8`, exactly. -/
def conf08 : ℚ := ⟨4, 5, by decide, by decide⟩

/-- An environment whose HuggingFace detector reports two overlapping
entity spans `[0,10)` and `[5,15)`. -/
def envTwoSpans : Env :=
  ⟨fun _ => [],
   fun _ => [⟨some "person", some "abcdefghij", some 0, some 10, some "hf_ner", some conf08⟩,
             ⟨some "org", some "fghijklmno", some 5, some 15, some "hf_ner", some conf08⟩]⟩

/-- An environment whose HuggingFace detector reports an inverted span
`start = 5, end = 3` (a misbehaving detector). -/
def envBad : Env :=
  ⟨fun _ => [],
   fun _ => [⟨some "thing", some "x", some 5, some 3, some "hf_ner", some conf08⟩]⟩

/-! ### Lemmas about the risk scorer -/

theorem weightOf_eq_claimWeight (f : Finding) : weightOf f = claimWeight f := by
  unfold weightOf claimWeight
  simp [List.mem_cons]

theorem foldl_weight (l : List Finding) : ∀ a : Int,
    l.foldl (fun s f => s + weightOf f) a = a + (l.map weightOf).sum := by
  induction l with
  | nil => simp
  | cons f fs ih =>
    intro a
    simp only [List.foldl_cons, List.map_cons, List.sum_cons, ih (a + weightOf f)]
    ring

theorem weightOf_ge (f : Finding) : 5 ≤ weightOf f := by
  unfold weightOf
  dsimp only
  split_ifs <;> norm_num

theorem sum_weight_lb (l : List Finding) : 5 * (l.length : Int) ≤ (l.map weightOf).sum := by
  induction l with
  | nil => simp
  | cons f fs ih =>
    have := weightOf_ge f
    simp only [List.map_cons, List.sum_cons, List.length_cons]
    push_cast
    linarith

theorem score_eq_min (fs : List Finding) (h : fs ≠ []) :
    score_privacy_risk fs = min ((fs.map weightOf).sum) 100 := by
  unfold score_privacy_risk
  rw [if_neg h, foldl_weight, zero_add]

theorem score_nonneg (fs : List Finding) : 0 ≤ score_privacy_risk fs := by
  by_cases h : fs = []
  · subst h; simp [score_privacy_risk]
  · rw [score_eq_min fs h]
    have h1 := sum_weight_lb fs
    have h2 : (0 : Int) ≤ 5 * (fs.length : Int) := by positivity
    exact le_min (by linarith) (by norm_num)

theorem score_le_100 (fs : List Finding) : score_privacy_risk fs ≤ 100 := by
  by_cases h : fs = []
  · subst h; simp [score_privacy_risk]
  · rw [score_eq_min fs h]; exact min_le_right _ _

/-- C3: `score_privacy_risk` is the per-finding weighted sum (35 for
ssn/credit_card, 20 for email/phone, 10 for person/org/gpe, 5
otherwise) clamped to at most 100; the empty list scores 0 and one ssn,
one credit_card and one email finding score 90. -/
theorem C3_score_is_clamped_weighted_sum :
    (∀ findings : List Finding,
      score_privacy_risk findings = min ((findings.map claimWeight).sum) 100) ∧
    score_privacy_risk [] = 0 ∧
    score_privacy_risk
      [⟨some "ssn", none, none, none, none, none⟩,
       ⟨some "credit_card", none, none, none, none, none⟩,
       ⟨some "email", none, none, none, none, none⟩] = 90 := by
  have hfun : weightOf = claimWeight := funext weightOf_eq_claimWeight
  refine ⟨?_, by decide, by decide⟩
  intro fs
  by_cases h : fs = []
  · subst h; simp [score_privacy_risk]
  · rw [score_eq_min fs h, hfun]

/-- C6: the risk score always lies in `[0, 100]` and appending one more
finding of any kind never decreases it. -/
theorem C6_score_bounded_and_monotone :
    ∀ (fs : List Finding) (f : Finding),
      0 ≤ score_privacy_risk fs ∧ score_privacy_risk fs ≤ 100 ∧
      score_privacy_risk fs ≤ score_privacy_risk (fs ++ [f]) := by
  intro fs f
  refine ⟨score_nonneg fs, score_le_100 fs, ?_⟩
  by_cases h : fs = []
  · subst h; simpa [score_privacy_risk] using score_nonneg [f]
  · have happ : fs ++ [f] ≠ [] := by simp
    rw [score_eq_min fs h, score_eq_min _ happ]
    have hW := weightOf_ge f
    refine min_le_min ?_ le_rfl
    simp only [List.map_append, List.sum_append, List.map_cons, List.map_nil,
      List.sum_cons, List.sum_nil]
    linarith

/-- C10: `score_privacy_risk` is total on malformed findings and bounded
below: every finding contributes at least the default 5, so the score is
at least `min(5 * length, 100)`, and any non-empty list scores at least
5. -/
theorem C10_score_lower_bound :
    ∀ fs : List Finding,
      min (5 * (fs.length : Int)) 100 ≤ score_privacy_risk fs ∧
      (fs ≠ [] → 5 ≤ score_privacy_risk fs) := by
  intro fs
  have hmain : min (5 * (fs.length : Int)) 100 ≤ score_privacy_risk fs := by
    by_cases h : fs = []
    · subst h; simp [score_privacy_risk]
    · rw [score_eq_min fs h]
      exact min_le_min (sum_weight_lb fs) le_rfl
  refine ⟨hmain, fun h => le_trans ?_ hmain⟩
  have hlen : 1 ≤ fs.length := List.length_pos.mpr h
  have : (1 : Int) ≤ (fs.length : Int) := by exact_mod_cast hlen
  exact le_min (by linarith) (by norm_num)

/-- Closed instance of C10 at a one-element list of a malformed finding
(no `type` key): it scores at least the 5-point default. -/
theorem C10_score_lower_bound_witness :
    5 ≤ score_privacy_risk [⟨none, none, none, none, none, none⟩] :=
  (C10_score_lower_bound [⟨none, none, none, none, none, none⟩]).2 (by decide)

/-! ### Generic list lemmas -/

theorem find?_eq_head?_filter {α : Type} (p : α → Bool) :
    ∀ l : List α, l.find? p = (l.filter p).head? := by
  intro l
  induction l with
  | nil => rfl
  | cons a l ih =>
    by_cases h : p a
    · rw [List.find?_cons_of_pos _ h, List.filter_cons, if_pos h, List.head?_cons]
    · rw [List.find?_cons_of_neg _ h, List.filter_cons, if_neg h, ih]

/-- Stability of `orderedInsert` through `filter`: if every element
satisfying `p` is `r`-below-able from `a` whenever `a` satisfies `p`,
inserting `a` commutes with filtering. -/
theorem filter_orderedInsert {α : Type} (r : α → α → Prop) [DecidableRel r]
    (p : α → Bool) (a : α) :
    ∀ s : List α, (p a = true → ∀ b, p b = true → r a b) →
      (List.orderedInsert r a s).filter p =
        if p a then a :: s.filter p else s.filter p := by
  intro s
  induction s with
  | nil => intro _; by_cases h : p a <;> simp [List.orderedInsert, List.filter_cons, h]
  | cons b t ih =>
    intro hcond
    by_cases hr : r a b
    · by_cases h : p a <;>
        simp [List.orderedInsert, if_pos hr, List.filter_cons, h]
    · rw [List.orderedInsert, if_neg hr, List.filter_cons]
      by_cases ha : p a
      · have hb : p b = false := by
          by_contra hb
          exact hr (hcond ha b (by simpa using hb))
        rw [hb]
        simp only [ha, if_true] at *
        rw [ih hcond, List.filter_cons, hb]
        simp
      · rw [ih hcond]
        simp only [ha, if_false]
        by_cases hb : p b <;> simp [List.filter_cons, hb]

/-- Stability of insertion sort through `filter`: if the elements
satisfying `p` are pairwise `r`-related (so the sort cannot reorder
them), sorting commutes with filtering. -/
theorem filter_insertionSort {α : Type} (r : α → α → Prop) [DecidableRel r]
    (p : α → Bool) (hp : ∀ a b, p a = true → p b = true → r a b) :
    ∀ l : List α, (List.insertionSort r l).filter p = l.filter p := by
  intro l
  induction l with
  | nil => simp
  | cons a l ih =>
    rw [List.insertionSort, filter_orderedInsert r p a _ (fun ha b hb => hp a b ha hb), ih]
    by_cases h : p a <;> simp [List.filter_cons, h]

/-! ### Lemmas about `_dedupe_findings` -/

theorem keepFirstsAux_sublist :
    ∀ (fs : List Finding) (seen), List.Sublist (keepFirstsAux seen fs) fs := by
  intro fs
  induction fs with
  | nil => intro seen; simp [keepFirstsAux]
  | cons f fs ih =>
    intro seen
    unfold keepFirstsAux
    split_ifs with h
    · exact (ih seen).cons f
    · exact (ih _).cons₂ f

theorem keepFirstsAux_find? (k : Option String × Option String × Option Int × Option Int) :
    ∀ (fs : List Finding) (seen),
      (keepFirstsAux seen fs).find? (fun f => decide (dedupeKey f = k)) =
        if k ∈ seen then none
        else fs.find? (fun f => decide (dedupeKey f = k)) := by
  intro fs
  induction fs with
  | nil => intro seen; by_cases h : k ∈ seen <;> simp [keepFirstsAux, h]
  | cons f fs ih =>
    intro seen
    unfold keepFirstsAux
    by_cases hf : dedupeKey f ∈ seen
    · rw [if_pos hf, ih seen]
      by_cases hk : k ∈ seen
      · simp [hk]
      · have hne : ¬(dedupeKey f = k) := fun he => hk (he ▸ hf)
        simp [hk, List.find?_cons, hne]
    · rw [if_neg hf]
      by_cases hfk : dedupeKey f = k
      · have hk : k ∉ seen := hfk ▸ hf
        have h1 : List.find? (fun g => decide (dedupeKey g = k))
            (f :: keepFirstsAux (dedupeKey f :: seen) fs) = some f :=
          List.find?_cons_of_pos _ (by simpa using hfk)
        have h2 : List.find? (fun g => decide (dedupeKey g = k)) (f :: fs) = some f :=
          List.find?_cons_of_pos _ (by simpa using hfk)
        rw [if_neg hk, h1, h2]
      · have h1 : List.find? (fun g => decide (dedupeKey g = k))
            (f :: keepFirstsAux (dedupeKey f :: seen) fs) =
              List.find? (fun g => decide (dedupeKey g = k))
                (keepFirstsAux (dedupeKey f :: seen) fs) :=
          List.find?_cons_of_neg _ (by simpa using hfk)
        have h2 : List.find? (fun g => decide (dedupeKey g = k)) (f :: fs) =
            List.find? (fun g => decide (dedupeKey g = k)) fs :=
          List.find?_cons_of_neg _ (by simpa using hfk)
        rw [h1, ih (dedupeKey f :: seen)]
        by_cases hk : k ∈ seen
        · rw [if_pos (List.mem_cons_of_mem _ hk), if_pos hk]
        · have hk' : k ∉ dedupeKey f :: seen := by
            intro hmem
            rcases List.mem_cons.mp hmem with he | hm
            · exact hfk he.symm
            · exact hk hm
          rw [if_neg hk', if_neg hk, h2]

theorem keepFirstsAux_keys :
    ∀ (fs : List Finding) (seen),
      ((keepFirstsAux seen fs).map dedupeKey).Nodup ∧
      ∀ f ∈ keepFirstsAux seen fs, dedupeKey f ∉ seen := by
  intro fs
  induction fs with
  | nil => intro seen; simp [keepFirstsAux]
  | cons f fs ih =>
    intro seen
    unfold keepFirstsAux
    split_ifs with h
    · exact ih seen
    · obtain ⟨ihnd, ihseen⟩ := ih (dedupeKey f :: seen)
      refine ⟨?_, ?_⟩
      · simp only [List.map_cons, List.nodup_cons]
        refine ⟨?_, ihnd⟩
        intro hmem
        obtain ⟨g, hg, hkey⟩ := List.mem_map.mp hmem
        exact (ihseen g hg) (by simp [hkey])
      · intro g hg
        rcases List.mem_cons.mp hg with hg | hg
        · subst hg; exact h
        · intro hmem
          exact (ihseen g hg) (List.mem_cons_of_mem _ hmem)

theorem keepFirstsAux_eq_self :
    ∀ (fs : List Finding) (seen),
      (fs.map dedupeKey).Nodup → (∀ f ∈ fs, dedupeKey f ∉ seen) →
      keepFirstsAux seen fs = fs := by
  intro fs
  induction fs with
  | nil => intro seen _ _; rfl
  | cons f fs ih =>
    intro seen hnd hseen
    unfold keepFirstsAux
    rw [if_neg (hseen f (List.mem_cons_self f fs))]
    simp only [List.map_cons, List.nodup_cons] at hnd
    congr 1
    refine ih _ hnd.2 ?_
    intro g hg
    simp only [List.mem_cons]
    push_neg
    refine ⟨?_, hseen g (List.mem_cons_of_mem _ hg)⟩
    intro he
    exact hnd.1 (he ▸ List.mem_map_of_mem dedupeKey hg)

/-- Findings with the same dedup key have the same sort key, hence are
mutually `findingLe`-related (which makes the stable sort keep their
input order). -/
theorem findingLe_of_key_eq {a b : Finding} (h : dedupeKey a = dedupeKey b) :
    findingLe a b := by
  unfold dedupeKey at h
  obtain ⟨-, -, h3, h4⟩ : a.type = b.type ∧ a.value = b.value ∧
      a.start = b.start ∧ a.«end» = b.«end» := by
    simpa [Prod.ext_iff] using h
  unfold findingLe keyLe sortKey
  rw [h3, h4]
  omega

theorem dedupe_find? (l : List Finding)
    (k : Option String × Option String × Option Int × Option Int) :
    (dedupeFindings l).find? (fun f => decide (dedupeKey f = k)) =
      l.find? (fun f => decide (dedupeKey f = k)) := by
  unfold dedupeFindings
  rw [keepFirstsAux_find?]
  simp only [List.not_mem_nil, if_false]
  rw [find?_eq_head?_filter, find?_eq_head?_filter,
    filter_insertionSort findingLe _ ?_]
  intro a b ha hb
  exact findingLe_of_key_eq ((of_decide_eq_true ha).trans (of_decide_eq_true hb).symm)

theorem sorted_dedupe (l : List Finding) :
    List.Sorted findingLe (dedupeFindings l) :=
  (List.sorted_insertionSort findingLe l).sublist (keepFirstsAux_sublist _ [])

/-- C4: deduplication sorts by `(start ascending, end descending)` with
null offsets read as 0, keeps exactly one finding per
`(type, value, start, end)` key, and the finding retained for each key
is the first one of the input list bearing that key. -/
theorem C4_dedupe_keeps_first_occurrence_per_key :
    ∀ l : List Finding,
      List.Sorted findingLe (dedupeFindings l) ∧
      ((dedupeFindings l).map dedupeKey).Nodup ∧
      ∀ k, (dedupeFindings l).find? (fun f => decide (dedupeKey f = k)) =
        l.find? (fun f => decide (dedupeKey f = k)) := by
  intro l
  exact ⟨sorted_dedupe l, (keepFirstsAux_keys _ []).1, fun k => dedupe_find? l k⟩

/-- C5: deduplication is idempotent. -/
theorem C5_dedupe_idempotent :
    ∀ l : List Finding, dedupeFindings (dedupeFindings l) = dedupeFindings l := by
  intro l
  have hsor := sorted_dedupe l
  have hnd := (keepFirstsAux_keys (List.insertionSort findingLe l) []).1
  calc dedupeFindings (dedupeFindings l)
      = keepFirstsAux [] (List.insertionSort findingLe (dedupeFindings l)) := rfl
    _ = keepFirstsAux [] (dedupeFindings l) := by rw [hsor.insertionSort_eq]
    _ = dedupeFindings l := keepFirstsAux_eq_self _ _ hnd (by simp)

/-! ### Lemmas about span merging -/

theorem covered_nil (i : Int) : ¬ covered [] i := by
  rintro ⟨p, hp, -⟩
  exact List.not_mem_nil p hp

theorem covered_cons (p : Int × Int) (ms : List (Int × Int)) (i : Int) :
    covered (p :: ms) i ↔ (p.1 ≤ i ∧ i < p.2) ∨ covered ms i := by
  constructor
  · rintro ⟨q, hq, hiq⟩
    rcases List.mem_cons.mp hq with rfl | hq
    · exact Or.inl hiq
    · exact Or.inr ⟨q, hq, hiq⟩
  · rintro (hip | ⟨q, hq, hiq⟩)
    · exact ⟨p, List.mem_cons_self p ms, hip⟩
    · exact ⟨q, List.mem_cons_of_mem _ hq, hiq⟩

theorem mergeGo_chain (n : Int) :
    ∀ (rest : List (Int × Int)) (cur : Int × Int) (lo : Int),
      lo ≤ cur.1 → cur.1 < cur.2 → cur.2 ≤ n →
      (∀ p ∈ rest, cur.1 ≤ p.1 ∧ p.1 < p.2 ∧ p.2 ≤ n) →
      List.Sorted spanLe rest →
      SpanChain n lo (mergeGo cur rest) := by
  intro rest
  induction rest with
  | nil =>
    intro cur lo h1 h2 h3 _ _
    exact ⟨h1, h2, h3, trivial⟩
  | cons q rest ih =>
    intro cur lo h1 h2 h3 hall hsort
    obtain ⟨s, e⟩ := q
    obtain ⟨hq1, hq2, hq3⟩ := hall (s, e) (List.mem_cons_self _ _)
    simp only [mergeGo]
    by_cases hse : s > cur.2
    · rw [if_pos hse]
      refine ⟨h1, h2, h3, ?_⟩
      exact ih (s, e) cur.2 (le_of_lt hse) hq2 hq3
        (fun p hp => ⟨List.rel_of_sorted_cons hsort p hp,
          (hall p (List.mem_cons_of_mem _ hp)).2⟩)
        hsort.of_cons
    · rw [if_neg hse]
      refine ih (cur.1, max cur.2 e) lo h1 (lt_max_of_lt_left h2) (max_le h3 hq3)
        (fun p hp => ⟨?_, (hall p (List.mem_cons_of_mem _ hp)).2⟩)
        hsort.of_cons
      exact le_trans hq1 (List.rel_of_sorted_cons hsort p hp)

theorem mergeGo_cover :
    ∀ (rest : List (Int × Int)) (cur : Int × Int) (i : Int),
      (∀ p ∈ rest, cur.1 ≤ p.1) → List.Sorted spanLe rest →
      (covered (mergeGo cur rest) i ↔ covered (cur :: rest) i) := by
  intro rest
  induction rest with
  | nil => intro cur i _ _; rfl
  | cons q rest ih =>
    intro cur i hlo hsort
    obtain ⟨s, e⟩ := q
    simp only [mergeGo]
    by_cases hse : s > cur.2
    · rw [if_pos hse, covered_cons, covered_cons,
        ih (s, e) i (fun p hp => List.rel_of_sorted_cons hsort p hp) hsort.of_cons,
        covered_cons]
    · rw [if_neg hse,
        ih (cur.1, max cur.2 e) i
          (fun p hp => le_trans (hlo (s, e) (List.mem_cons_self _ _))
            (List.rel_of_sorted_cons hsort p hp))
          hsort.of_cons,
        covered_cons, covered_cons, covered_cons]
      have h1 : cur.1 ≤ s := hlo (s, e) (List.mem_cons_self _ _)
      have key : ((cur.1, max cur.2 e).1 ≤ i ∧ i < (cur.1, max cur.2 e).2) ↔
          ((cur.1 ≤ i ∧ i < cur.2) ∨ (s ≤ i ∧ i < e)) := by
        simp only []
        omega
      rw [key, or_assoc]

theorem mergeGo_head :
    ∀ (rest : List (Int × Int)) (cur : Int × Int),
      ∃ e' tl, mergeGo cur rest = (cur.1, e') :: tl := by
  intro rest
  induction rest with
  | nil => exact fun cur => ⟨cur.2, [], rfl⟩
  | cons q rest ih =>
    intro cur
    obtain ⟨s, e⟩ := q
    simp only [mergeGo]
    by_cases hse : s > cur.2
    · rw [if_pos hse]
      exact ⟨cur.2, mergeGo (s, e) rest, rfl⟩
    · rw [if_neg hse]
      exact ih (cur.1, max cur.2 e)

theorem mergeGo_sep :
    ∀ (rest : List (Int × Int)) (cur : Int × Int), List.Sorted spanLe rest →
      List.Chain' (fun p q : Int × Int => p.2 < q.1) (mergeGo cur rest) := by
  intro rest
  induction rest with
  | nil => intro cur _; exact List.chain'_singleton cur
  | cons q rest ih =>
    intro cur hsort
    obtain ⟨s, e⟩ := q
    simp only [mergeGo]
    by_cases hse : s > cur.2
    · rw [if_pos hse]
      rw [List.chain'_cons']
      refine ⟨?_, ih (s, e) hsort.of_cons⟩
      intro y hy
      obtain ⟨e', tl, heq⟩ := mergeGo_head rest (s, e)
      rw [heq] at hy
      simp only [List.head?_cons, Option.mem_def, Option.some.injEq] at hy
      rw [← hy]
      exact hse
    · rw [if_neg hse]
      exact ih (cur.1, max cur.2 e) hsort.of_cons

theorem mergeGo_valid :
    ∀ (rest : List (Int × Int)) (cur : Int × Int), cur.1 < cur.2 →
      (∀ p ∈ rest, p.1 < p.2) → ∀ p ∈ mergeGo cur rest, p.1 < p.2 := by
  intro rest
  induction rest with
  | nil =>
    intro cur hcur _ p hp
    rcases List.mem_cons.mp hp with rfl | hp
    · exact hcur
    · exact absurd hp (List.not_mem_nil p)
  | cons q rest ih =>
    intro cur hcur hall p hp
    obtain ⟨s, e⟩ := q
    simp only [mergeGo] at hp
    by_cases hse : s > cur.2
    · rw [if_pos hse] at hp
      rcases List.mem_cons.mp hp with rfl | hp
      · exact hcur
      · exact ih (s, e) (hall (s, e) (List.mem_cons_self _ _))
          (fun p hp => hall p (List.mem_cons_of_mem _ hp)) p hp
    · rw [if_neg hse] at hp
      exact ih (cur.1, max cur.2 e) (lt_max_of_lt_left hcur)
        (fun p hp => hall p (List.mem_cons_of_mem _ hp)) p hp

theorem mergeSpans_chain (n : Int) (sp : List (Int × Int))
    (hsort : List.Sorted spanLe sp)
    (hval : ∀ p ∈ sp, 0 ≤ p.1 ∧ p.1 < p.2 ∧ p.2 ≤ n) :
    SpanChain n 0 (mergeSpans sp) := by
  cases sp with
  | nil => trivial
  | cons q sp =>
    obtain ⟨h01, h2, h3⟩ := hval q (List.mem_cons_self _ _)
    exact mergeGo_chain n sp q 0 h01 h2 h3
      (fun p hp => ⟨List.rel_of_sorted_cons hsort p hp,
        (hval p (List.mem_cons_of_mem _ hp)).2⟩)
      hsort.of_cons

theorem mergeSpans_cover (sp : List (Int × Int)) (hsort : List.Sorted spanLe sp)
    (i : Int) : covered (mergeSpans sp) i ↔ covered sp i := by
  cases sp with
  | nil => rfl
  | cons q sp =>
    exact mergeGo_cover sp q i (fun p hp => List.rel_of_sorted_cons hsort p hp)
      hsort.of_cons

/-! ### Lemmas about slicing and the rebuild -/

theorem pySlice_eq_seg (t : List Char) (a b : Int)
    (h0 : 0 ≤ a) (hab : a ≤ b) (hb : b ≤ (t.length : Int)) :
    pySlice t a b = (t.drop a.toNat).take (b - a).toNat := by
  unfold pySlice
  dsimp only
  rw [if_neg (by omega), if_neg (by omega), min_eq_left hb, min_eq_left (by omega)]

theorem pySliceFrom_eq (t : List Char) (a : Int)
    (h0 : 0 ≤ a) (h : a ≤ (t.length : Int)) :
    pySliceFrom t a = t.drop a.toNat := by
  unfold pySliceFrom
  rw [pySlice_eq_seg t a t.length h0 h le_rfl]
  apply List.take_of_length_le
  rw [List.length_drop]
  omega

theorem rebuildInt_eq_segRebuild (t ph : List Char) :
    ∀ (ms : List (Int × Int)) (last : Int), 0 ≤ last → last ≤ (t.length : Int) →
      SpanChain (t.length : Int) last ms →
      rebuildInt t ph ms last = segRebuild t ph ms last := by
  intro ms
  induction ms with
  | nil =>
    intro last h0 hn _
    exact pySliceFrom_eq t last h0 hn
  | cons q ms ih =>
    intro last h0 hn hch
    obtain ⟨s, e⟩ := q
    obtain ⟨h1, h2, h3, h4⟩ : last ≤ s ∧ s < e ∧ e ≤ (t.length : Int) ∧
        SpanChain (t.length : Int) e ms := hch
    simp only [rebuildInt, segRebuild]
    rw [pySlice_eq_seg t last s h0 h1 (by omega), ih e (by omega) h3 h4]

/-! ### Lemmas about the regex fallback path -/

theorem subPattern_id (m : Matcher) (ph s : List Char) (h : findAll m s = []) :
    subPattern m ph s = s := by
  unfold subPattern
  rw [h]
  simp [subRebuild]

theorem key_eq_fields {a b : Finding} (h : dedupeKey a = dedupeKey b) :
    a.type = b.type ∧ a.value = b.value ∧ a.start = b.start ∧ a.«end» = b.«end» := by
  unfold dedupeKey at h
  simpa [Prod.ext_iff] using h

theorem exists_key_in_dedupe {l : List Finding} {f : Finding} (hf : f ∈ l) :
    ∃ g ∈ dedupeFindings l, dedupeKey g = dedupeKey f := by
  have hsome : (l.find? (fun g => decide (dedupeKey g = dedupeKey f))).isSome :=
    List.find?_isSome.mpr ⟨f, hf, by simp⟩
  obtain ⟨g, hg⟩ := Option.isSome_iff_exists.mp hsome
  have hkey : dedupeKey g = dedupeKey f := by simpa using List.find?_some hg
  have hmem : g ∈ dedupeFindings l :=
    List.mem_of_find?_eq_some ((dedupe_find? l (dedupeKey f)).trans hg)
  exact ⟨g, hmem, hkey⟩

theorem regexScan_mem_start {text : String} {f : Finding} (hf : f ∈ regexScan text) :
    ∃ a b : Nat, f.start = some (a : Int) ∧ f.«end» = some (b : Int) := by
  unfold regexScan at hf
  rw [List.mem_flatten] at hf
  obtain ⟨l, hl, hfl⟩ := hf
  rw [List.mem_map] at hl
  obtain ⟨p, -, rfl⟩ := hl
  rw [List.mem_map] at hfl
  obtain ⟨ab, -, rfl⟩ := hfl
  exact ⟨ab.1, ab.2, rfl, rfl⟩

theorem spansOf_eq_nil_iff (fs : List Finding) :
    spansOf fs = [] ↔ ∀ f ∈ fs, f.start = none ∨ f.«end» = none := by
  unfold spansOf
  rw [List.filterMap_eq_nil_iff]
  constructor
  · intro h f hf
    have hnone := h f hf
    cases hs : f.start with
    | none => exact Or.inl rfl
    | some s =>
      cases he : f.«end» with
      | none => exact Or.inr rfl
      | some e => rw [hs, he] at hnone; exact absurd hnone (by simp)
  · intro h f hf
    rcases h f hf with hs | he
    · rw [hs]
    · rw [he]; cases f.start <;> rfl

theorem mem_spansOf {fs : List Finding} {s e : Int} {f : Finding}
    (hf : f ∈ fs) (hs : f.start = some s) (he : f.«end» = some e) :
    (s, e) ∈ spansOf fs :=
  List.mem_filterMap.mpr ⟨f, hf, by rw [hs, he]⟩

/-- If the full scan localises nothing, then in particular the regex
detector found nothing (each regex finding carries its span, whose
dedup key survives deduplication). -/
theorem scan_no_spans_regex_nil {env : Env} {text : String}
    (h : spansOf (scan_text env text true true true) = []) :
    regexScan text = [] := by
  by_contra hne
  obtain ⟨f, hf⟩ := List.exists_mem_of_ne_nil _ hne
  obtain ⟨a, b, hsa, hsb⟩ := regexScan_mem_start hf
  have hfl : f ∈ (regexScan text ++ env.spacy text ++ env.hf text) := by
    simp [hf]
  have hscan : scan_text env text true true true =
      dedupeFindings (regexScan text ++ env.spacy text ++ env.hf text) := by
    simp [scan_text]
  obtain ⟨g, hg, hkey⟩ := exists_key_in_dedupe hfl
  obtain ⟨-, -, hgs, hge⟩ := key_eq_fields hkey
  have : ((a : Int), (b : Int)) ∈ spansOf (scan_text env text true true true) := by
    rw [hscan]
    exact mem_spansOf hg (hgs.trans hsa) (hge.trans hsb)
  rw [h] at this
  exact absurd this (List.not_mem_nil _)

theorem dedupe_eq_nil {l : List Finding} (h : dedupeFindings l = []) : l = [] := by
  unfold dedupeFindings at h
  have hs : List.insertionSort findingLe l = [] := by
    cases hsort : List.insertionSort findingLe l with
    | nil => rfl
    | cons f fs =>
      rw [hsort] at h
      unfold keepFirstsAux at h
      rw [if_neg (List.not_mem_nil _)] at h
      exact absurd h (by simp)
  have hperm := List.perm_insertionSort findingLe l
  rw [hs] at hperm
  exact hperm.symm.eq_nil

/-- If the regex scan of `text` is empty, every individual pattern has
no match in `text`, so the fallback substitution pass leaves `text`
unchanged. -/
theorem fallback_id {text : String} (h : regexScan text = []) (ph : List Char) :
    PII_PATTERNS.foldl (fun cur p => subPattern p.2 ph cur) text.data = text.data := by
  have hall : ∀ pr ∈ PII_PATTERNS, findAll pr.2 text.data = [] := by
    intro pr hpr
    unfold regexScan at h
    rw [List.flatten_eq_nil_iff] at h
    exact List.map_eq_nil_iff.mp (h _ (List.mem_map_of_mem _ hpr))
  have h1 := hall ("email", emailMatch) (by simp [PII_PATTERNS])
  have h2 := hall ("phone", phoneMatch) (by simp [PII_PATTERNS])
  have h3 := hall ("ssn", ssnMatch) (by simp [PII_PATTERNS])
  have h4 := hall ("credit_card", ccMatch) (by simp [PII_PATTERNS])
  simp only [PII_PATTERNS, List.foldl_cons, List.foldl_nil]
  rw [subPattern_id _ _ _ h1, subPattern_id _ _ _ h2,
    subPattern_id _ _ _ h3, subPattern_id _ _ _ h4]

theorem string_mk_data (s : String) : String.mk s.data = s := by
  cases s
  rfl

/-! ### The redaction claims -/

/-- C1: whenever the spans the scan detects are in bounds and
non-degenerate, the redacted text is exactly the interleaving of the
verbatim unredacted gaps (final trailing gap included) with one
placeholder per merged span, where the merged spans form an ordered
disjoint in-bounds chain covering exactly the characters that lie inside
some detected non-null span. -/
theorem C1_redact_copies_gaps_replaces_spans (env : Env) (text : String)
    (h : ∀ p ∈ spansOf (scan_text env text true true true),
      0 ≤ p.1 ∧ p.1 < p.2 ∧ p.2 ≤ (text.data.length : Int)) :
    ∃ ms : List (Int × Int),
      SpanChain (text.data.length : Int) 0 ms ∧
      (∀ i : Int, covered ms i ↔
        covered (spansOf (scan_text env text true true true)) i) ∧
      redact_text env text "[REDACTED]" =
        String.mk (segRebuild text.data "[REDACTED]".data ms 0) := by
  by_cases hsp : spansOf (scan_text env text true true true) = []
  · refine ⟨[], trivial, ?_, ?_⟩
    · intro i
      rw [hsp]
    · have hregex := scan_no_spans_regex_nil hsp
      simp only [redact_text]
      rw [if_pos hsp, fallback_id hregex]
      simp [segRebuild]
  · have hsorted : List.Sorted spanLe
        (sortSpans (spansOf (scan_text env text true true true))) :=
      List.sorted_insertionSort spanLe _
    have hperm := List.perm_insertionSort spanLe
      (spansOf (scan_text env text true true true))
    have hval : ∀ p ∈ sortSpans (spansOf (scan_text env text true true true)),
        0 ≤ p.1 ∧ p.1 < p.2 ∧ p.2 ≤ (text.data.length : Int) :=
      fun p hp => h p (hperm.subset hp)
    have hchain := mergeSpans_chain (text.data.length : Int) _ hsorted hval
    refine ⟨mergeSpans (sortSpans (spansOf (scan_text env text true true true))),
      hchain, ?_, ?_⟩
    · intro i
      rw [mergeSpans_cover _ hsorted i]
      constructor <;> rintro ⟨p, hp, hip⟩
      · exact ⟨p, hperm.subset hp, hip⟩
      · exact ⟨p, hperm.symm.subset hp, hip⟩
    · simp only [redact_text]
      rw [if_neg hsp]
      congr 1
      exact rebuildInt_eq_segRebuild _ _ _ 0 le_rfl (by positivity) hchain

/-- Closed instance of C1 at the trivial environment and the text
`"a@b.co"` (one email finding with span `[0,6)`). -/
theorem C1_redact_copies_gaps_replaces_spans_witness :
    ∃ ms : List (Int × Int),
      SpanChain (("a@b.co".data.length : Int)) 0 ms ∧
      (∀ i : Int, covered ms i ↔
        covered (spansOf (scan_text env0 "a@b.co" true true true)) i) ∧
      redact_text env0 "a@b.co" "[REDACTED]" =
        String.mk (segRebuild "a@b.co".data "[REDACTED]".data ms 0) :=
  C1_redact_copies_gaps_replaces_spans env0 "a@b.co" (by decide)

/-- C2: merging coalesces a span into the running merged span exactly
when its start is at or before the running end (touching counts as
overlap), preserving coverage while producing strictly separated
non-degenerate spans, each replaced by one placeholder; concretely,
spans `[0,10)` and `[5,15)` over a 15-character text merge to the single
span `[0,15)` and redact to exactly one placeholder. -/
theorem C2_merge_coalesces_overlapping_spans :
    (∀ sp : List (Int × Int), List.Sorted spanLe sp → (∀ p ∈ sp, p.1 < p.2) →
      (∀ i : Int, covered (mergeSpans sp) i ↔ covered sp i) ∧
      List.Chain' (fun p q : Int × Int => p.2 < q.1) (mergeSpans sp) ∧
      (∀ p ∈ mergeSpans sp, p.1 < p.2)) ∧
    mergeSpans (sortSpans [((0 : Int), (10 : Int)), (5, 15)]) = [(0, 15)] ∧
    redact_text envTwoSpans "abcdefghijklmno" "[REDACTED]" = "[REDACTED]" := by
  refine ⟨?_, by decide, by decide⟩
  intro sp hsort hval
  refine ⟨fun i => mergeSpans_cover sp hsort i, ?_, ?_⟩
  · cases sp with
    | nil => exact List.chain'_nil
    | cons q sp => exact mergeGo_sep sp q hsort.of_cons
  · cases sp with
    | nil => intro p hp; exact absurd hp (List.not_mem_nil p)
    | cons q sp =>
      exact mergeGo_valid sp q (hval q (List.mem_cons_self _ _))
        (fun p hp => hval p (List.mem_cons_of_mem _ hp))

/-- Closed instance of the merge part of C2 at the claim's spans
`[0,10)` and `[5,15)`. -/
theorem C2_merge_coalesces_overlapping_spans_witness :
    (∀ i : Int, covered (mergeSpans [((0 : Int), (10 : Int)), (5, 15)]) i ↔
      covered [((0 : Int), (10 : Int)), (5, 15)] i) ∧
    List.Chain' (fun p q : Int × Int => p.2 < q.1)
      (mergeSpans [((0 : Int), (10 : Int)), (5, 15)]) ∧
    (∀ p ∈ mergeSpans [((0 : Int), (10 : Int)), (5, 15)], p.1 < p.2) :=
  C2_merge_coalesces_overlapping_spans.1 [(0, 10), (5, 15)] (by decide) (by decide)

/-- C7: when no finding of the scan has both offsets non-null, the
redaction falls back to substituting every pattern-detector regex over
the text (in dict order email, phone, ssn, credit_card) and returns that
result. -/
theorem C7_fallback_regex_substitution (env : Env) (text : String)
    (h : ∀ f ∈ scan_text env text true true true,
      f.start = none ∨ f.«end» = none) :
    redact_text env text "[REDACTED]" =
      String.mk (subPattern ccMatch "[REDACTED]".data
        (subPattern ssnMatch "[REDACTED]".data
          (subPattern phoneMatch "[REDACTED]".data
            (subPattern emailMatch "[REDACTED]".data text.data)))) := by
  have hsp : spansOf (scan_text env text true true true) = [] :=
    (spansOf_eq_nil_iff _).mpr h
  simp only [redact_text]
  rw [if_pos hsp]
  simp only [PII_PATTERNS, List.foldl_cons, List.foldl_nil]

/-- Closed instance of C7 at the trivial environment and a text without
PII (the scan finds nothing at all, and the fallback substitutions leave
the text unchanged). -/
theorem C7_fallback_regex_substitution_witness :
    redact_text env0 "hello" "[REDACTED]" =
      String.mk (subPattern ccMatch "[REDACTED]".data
        (subPattern ssnMatch "[REDACTED]".data
          (subPattern phoneMatch "[REDACTED]".data
            (subPattern emailMatch "[REDACTED]".data "hello".data)))) :=
  C7_fallback_regex_substitution env0 "hello" (by decide)

/-- C8: redaction is idempotent on its own output whenever scanning the
redacted output finds nothing. -/
theorem C8_redact_idempotent_when_output_clean (env : Env) (t : String)
    (h : scan_text env (redact_text env t "[REDACTED]") true true true = []) :
    redact_text env (redact_text env t "[REDACTED]") "[REDACTED]" =
      redact_text env t "[REDACTED]" := by
  generalize redact_text env t "[REDACTED]" = r at h ⊢
  have hsp : spansOf (scan_text env r true true true) = [] := by
    rw [h]
    rfl
  have hcomb : regexScan r ++ env.spacy r ++ env.hf r = [] := by
    apply dedupe_eq_nil
    have hscan : scan_text env r true true true =
        dedupeFindings (regexScan r ++ env.spacy r ++ env.hf r) := by
      simp [scan_text]
    rw [← hscan, h]
  have hregex : regexScan r = [] := by
    rw [List.append_eq_nil] at hcomb
    exact (List.append_eq_nil.mp hcomb.1).1
  simp only [redact_text]
  rw [if_pos hsp, fallback_id hregex, string_mk_data]

/-- Closed instance of C8 at the trivial environment and the clean text
`"hello"`. -/
theorem C8_redact_idempotent_when_output_clean_witness :
    redact_text env0 (redact_text env0 "hello" "[REDACTED]") "[REDACTED]" =
      redact_text env0 "hello" "[REDACTED]" :=
  C8_redact_idempotent_when_output_clean env0 "hello" (by decide)

/-- C9 counterexample: `redact_text` does not defensively exclude
invalid spans.  With a detector reporting the inverted span
`start = 5, end = 3` on `"abcdefgh"`, the code's result differs from the
claimed behaviour (excluding spans that violate
`0 <= start < end <= len(text)` from the merge). -/
theorem C9_counterexample_no_exclusion :
    redact_text envBad "abcdefgh" "[REDACTED]" ≠
      redact_text_validated envBad "abcdefgh" "[REDACTED]" := by decide

/-- C9 amended: no defensive exclusion happens — every non-null span,
valid or not, contributes to the merge (Python slice clamping merely
keeps the rebuild from faulting).  The inverted span `(5,3)` survives
scan and merge untouched and yields `"abcde[REDACTED]defgh"`, which even
repeats the characters `"de"`, instead of leaving the text alone. -/
theorem C9_invalid_span_contributes :
    spansOf (scan_text envBad "abcdefgh" true true true) = [(5, 3)] ∧
    mergeSpans (sortSpans [((5 : Int), (3 : Int))]) = [(5, 3)] ∧
    redact_text envBad "abcdefgh" "[REDACTED]" = "abcde[REDACTED]defgh" := by
  exact ⟨by decide, by decide, by decide⟩

end PIIScanner
